import Mathlib

/-!
# Verification of the crux effect-command runtime

A shallow embedding, in Lean 4, of the `Command` / continuation-resolution
machinery of the crux core (`crux_core/src/command.rs`), its test harness
(`crux_core/src/testing.rs`), and the effect-enum derivation check
(`crux_macros/src/effect.rs`), together with theorems about them.

Machine bytes are modelled as `Nat` (with explicit `< 256` or `< 128`
guards where the byte width matters); fallible Rust operations whose Rust
type is a plain value but which may `panic!` are modelled with the
`RustOutcome` type below, whose `panicked` constructor marks a panic.
-/

set_option autoImplicit false

namespace Crux

/-! ## The canonical binary encoding (bcs) for byte vectors

`bcs` serializes a `Vec<u8>` as a ULEB128-encoded length followed by the raw
bytes, and deserialization rejects non-canonical ULEB128 prefixes as well as
inputs that are not consumed exactly.  `Command::map` in `command.rs` calls
`bcs::from_bytes::<Vec<u8>>` and `bcs::to_bytes(&Vec<u8>)`, so this pair of
functions is the concrete encoding the embedding needs. -/

/-- ULEB128 encoding of a natural number: little-endian base-128 groups,
every byte but the last carrying a continuation bit (`+ 128`). -/
def ulebEncode (n : Nat) : List Nat :=
  if h : n < 128 then [n]
  else (n % 128 + 128) :: ulebEncode (n / 128)
  termination_by n
  decreasing_by exact Nat.div_lt_self (by omega) (by omega)

/-- ULEB128 decoding, returning the value and the unconsumed remainder.
The `first` flag is true only for the first byte of the integer: a terminal
zero byte after at least one continuation byte is a non-canonical encoding
and is rejected, as `bcs` rejects it.  Bytes `≥ 256` cannot occur in Rust
(`u8`) and are rejected. -/
def ulebDecodeAux : List Nat → Bool → Option (Nat × List Nat)
  | [], _ => none
  | b :: rest, first =>
    if 256 ≤ b then none
    else if b < 128 then
      if b == 0 && !first then none else some (b, rest)
    else
      match ulebDecodeAux rest false with
      | some (m, rem) => some (m * 128 + (b - 128), rem)
      | none => none

/-- ULEB128 decoding of an integer at the head of a byte stream. -/
def ulebDecode (p : List Nat) : Option (Nat × List Nat) :=
  ulebDecodeAux p true

/-- `bcs::to_bytes` on a `Vec<u8>`: ULEB128 length prefix, then the bytes. -/
def encodeBcsBytes (b : List Nat) : List Nat :=
  ulebEncode b.length ++ b

/-- `bcs::from_bytes::<Vec<u8>>`: read the ULEB128 length, then demand that
exactly that many bytes remain (bcs fails both on trailing input and on a
short read). -/
def decodeBcsBytes (p : List Nat) : Option (List Nat) :=
  match ulebDecode p with
  | some (n, rest) => if rest.length == n then some rest else none
  | none => none

theorem ulebDecodeAux_ulebEncode (n : Nat) (rest : List Nat) (first : Bool)
    (h : first = true ∨ 0 < n) :
    ulebDecodeAux (ulebEncode n ++ rest) first = some (n, rest) := by
  induction n using Nat.strong_induction_on generalizing first with
  | _ n ih =>
    rw [ulebEncode]
    by_cases hn : n < 128
    · simp only [hn, dite_true, List.cons_append, List.nil_append, ulebDecodeAux]
      have h256 : ¬ 256 ≤ n := by omega
      simp only [h256, if_false, hn, if_true]
      rcases h with hf | hpos
      · subst hf; simp
      · have : (n == 0) = false := by simp; omega
        simp [this]
    · simp only [hn, dite_false, List.cons_append, ulebDecodeAux]
      have h256 : ¬ 256 ≤ n % 128 + 128 := by omega
      have h128 : ¬ n % 128 + 128 < 128 := by omega
      simp only [h256, if_false, h128]
      have hrec := ih (n / 128) (Nat.div_lt_self (by omega) (by omega)) false
        (Or.inr (by omega))
      rw [hrec]
      simp only [Option.some.injEq, Prod.mk.injEq]
      exact ⟨by omega, trivial⟩

theorem ulebDecodeAux_canonical (p : List Nat) (first : Bool) (n : Nat) (rest : List Nat)
    (h : ulebDecodeAux p first = some (n, rest)) :
    ulebEncode n ++ rest = p ∧ (first = false → 0 < n) := by
  induction p generalizing first n rest with
  | nil => simp [ulebDecodeAux] at h
  | cons b tail ih =>
    simp only [ulebDecodeAux] at h
    by_cases h256 : 256 ≤ b
    · simp [h256] at h
    · simp only [h256, if_false] at h
      by_cases h128 : b < 128
      · simp only [h128, if_true] at h
        by_cases hz : (b == 0 && !first) = true
        · simp [hz] at h
        · simp only [hz, if_false, Option.some.injEq, Prod.mk.injEq] at h
          obtain ⟨rfl, rfl⟩ := h
          constructor
          · rw [ulebEncode]; simp [h128]
          · intro hf
            subst hf
            simp only [Bool.not_false, Bool.and_true, beq_iff_eq] at hz
            omega
      · simp only [h128, if_false] at h
        cases hrec : ulebDecodeAux tail false with
        | none => rw [hrec] at h; simp at h
        | some v =>
          obtain ⟨m, rem⟩ := v
          rw [hrec] at h
          simp only [Option.some.injEq, Prod.mk.injEq] at h
          obtain ⟨rfl, rfl⟩ := h
          obtain ⟨htail, hm⟩ := ih false m rem hrec
          have hmpos : 0 < m := hm rfl
          constructor
          · rw [ulebEncode]
            have hlt : ¬ m * 128 + (b - 128) < 128 := by omega
            have hmod : (m * 128 + (b - 128)) % 128 = b - 128 := by omega
            have hdiv : (m * 128 + (b - 128)) / 128 = m := by omega
            simp only [hlt, dite_false, hmod, hdiv, List.cons_append, List.cons.injEq]
            exact ⟨by omega, htail⟩
          · intro _; omega

theorem decodeBcsBytes_encodeBcsBytes (b : List Nat) :
    decodeBcsBytes (encodeBcsBytes b) = some b := by
  unfold decodeBcsBytes encodeBcsBytes ulebDecode
  rw [ulebDecodeAux_ulebEncode b.length b true (Or.inl rfl)]
  simp

theorem encodeBcsBytes_of_decode (p b : List Nat)
    (h : decodeBcsBytes p = some b) : encodeBcsBytes b = p := by
  unfold decodeBcsBytes ulebDecode at h
  cases hdec : ulebDecodeAux p true with
  | none => rw [hdec] at h; simp at h
  | some v =>
    obtain ⟨n, rest⟩ := v
    rw [hdec] at h
    by_cases hlen : rest.length = n
    · simp only [hlen, beq_self_eq_true, if_true, Option.some.injEq] at h
      subst h
      have hcanon := (ulebDecodeAux_canonical p true n rest hdec).1
      unfold encodeBcsBytes
      rw [hlen]
      exact hcanon
    · simp [hlen] at h

/-! ## Command and its erased continuation (`crux_core/src/command.rs`)

A Rust function whose declared return type is a plain value but which may
`panic!` is embedded as a function into `RustOutcome`, where `panicked`
carries the panic message. -/

/-- Outcome of running a Rust expression of type `α` that may panic. -/
inductive RustOutcome (α : Type) where
  | value : α → RustOutcome α
  | panicked : String → RustOutcome α
  deriving DecidableEq, Repr

/-- Post-compose a pure Rust computation onto an outcome: a panic in the
argument propagates. -/
def RustOutcome.map {α β : Type} (f : α → β) : RustOutcome α → RustOutcome β
  | .value a => .value (f a)
  | .panicked m => .panicked m

/-- The panic message of `Result::unwrap` / `Option::unwrap` on a failure,
as produced by `from_bytes::<T>(&value).unwrap()` in `CallBackFn::call`. -/
def unwrapFailMsg : String := "called unwrap on an error value"

/-- `Command` from `command.rs`: an effect descriptor plus an optional
type-erased continuation (`resolve: Option<Box<dyn Callback<Ev>>>`).  The
erased callback takes the raw byte payload and may panic. -/
structure Command (Ef Ev : Type) where
  effect : Ef
  resolve : Option (List Nat → RustOutcome Ev)

/-- `CallBackFn::call`: decode the payload with the deserializer of `T`
(`from_bytes::<T>`) and `unwrap` — a decode failure panics — then apply the
stored function.  The stored function itself may panic (as in the closure
built by `Command::map`), hence its `RustOutcome` codomain. -/
def callBackFnCall {T Ev : Type} (dec : List Nat → Option T)
    (function : T → RustOutcome Ev) (value : List Nat) : RustOutcome Ev :=
  match dec value with
  | some t => function t
  | none => .panicked unwrapFailMsg

/-- `Command::new(effect, resolve)`: wrap the strongly-typed continuation
`resolve : T → Ev` behind the decode step of `CallBackFn`.  The
`DeserializeOwned` bound on `T` is embedded as the explicit deserializer
`dec`. -/
def Command.new {Ef Ev T : Type} (effect : Ef) (dec : List Nat → Option T)
    (resolve : T → Ev) : Command Ef Ev :=
  { effect := effect
    resolve := some (callBackFnCall dec (fun t => .value (resolve t))) }

/-- `Command::new_without_callback(effect)`. -/
def Command.new_without_callback {Ef Ev : Type} (effect : Ef) : Command Ef Ev :=
  { effect := effect, resolve := none }

/-- `Command::resolve(&self, value)`: call the continuation if present,
otherwise `panic!("mismatched capability response")`.  (Rust uses the name
`resolve` both for the field and the method; the method is `resolveWith`
here.) -/
def Command.resolveWith {Ef Ev : Type} (c : Command Ef Ev) (value : List Nat) :
    RustOutcome Ev :=
  match c.resolve with
  | some r => r value
  | none => .panicked "mismatched capability response"

/-- `Command::map(self, f)`: keep the effect; if a continuation is present,
replace it by a closure that receives the payload decoded as a `Vec<u8>`
(the outer `CallBackFn<Vec<u8>, _>` decode step), re-encodes it with
`bcs::to_bytes` (which cannot fail on a byte vector), feeds those bytes to
the original erased continuation and applies `f` to its result. -/
def Command.map {Ef Ev ParentEvent : Type} (c : Command Ef Ev)
    (f : Ev → ParentEvent) : Command Ef ParentEvent :=
  { effect := c.effect
    resolve :=
      match c.resolve with
      | some resolve =>
        some (callBackFnCall decodeBcsBytes
          (fun capability_response =>
            RustOutcome.map f (resolve (encodeBcsBytes capability_response))))
      | none => none }

/-- `Command::lift(commands, f)`: map every command of the sequence. -/
def Command.lift {Ef Ev ParentEv : Type} (commands : List (Command Ef Ev))
    (f : Ev → ParentEv) : List (Command Ef ParentEv) :=
  commands.map (fun c => c.map f)

/-- `Command::resolve` takes `&self`: in state-passing form one resolution
step returns the outcome together with the (unchanged, shared) command. -/
def Command.resolveStep {Ef Ev : Type} (c : Command Ef Ev) (value : List Nat) :
    RustOutcome Ev × Command Ef Ev :=
  (c.resolveWith value, c)

/-- Resolve a command repeatedly, once per payload of the list, threading
the command state returned by each `resolveStep` into the next call. -/
def Command.resolveTrace {Ef Ev : Type} (c : Command Ef Ev) :
    List (List Nat) → List (RustOutcome Ev) × Command Ef Ev
  | [] => ([], c)
  | p :: ps =>
    let step := c.resolveStep p
    let rest := step.2.resolveTrace ps
    (step.1 :: rest.1, rest.2)

/-! ## Update and the test harness (`crux_core/src/testing.rs`) -/

/-- `Update` from `testing.rs`: the effects and events drained from one run
of the update logic. -/
structure Update (Ef Ev : Type) where
  effects : List Ef
  events : List Ev
  deriving DecidableEq, Repr

/-- `Update::take_effects_partitioned_by(&mut self, predicate)`:
`std::mem::take(&mut self.effects)` empties the effect list, and the taken
effects are partitioned by the predicate (Rust's `Iterator::partition`
pushes each element, in iteration order, onto the matching or the
non-matching collection).  State-passing form: result plus mutated update. -/
def Update.take_effects_partitioned_by {Ef Ev : Type} (u : Update Ef Ev)
    (predicate : Ef → Bool) : (List Ef × List Ef) × Update Ef Ev :=
  ((u.effects.filter predicate, u.effects.filter (fun e => ! predicate e)),
    { u with effects := [] })

/-- `Update::take_effects(&mut self, predicate)`: partition via
`take_effects_partitioned_by`, store the non-matching effects back into
`self.effects`, and return the matching ones. -/
def Update.take_effects {Ef Ev : Type} (u : Update Ef Ev)
    (predicate : Ef → Bool) : List Ef × Update Ef Ev :=
  let r := u.take_effects_partitioned_by predicate
  (r.1.1, { r.2 with effects := r.1.2 })

/-- Merge two lists according to a boolean mask recording, position by
position, which of the two lists the next element of the original sequence
came from.  `mergeMask (l.map p) (l.filter p) (l.filter !p)` rebuilds `l`:
this is what "merged back in the original relative order" means. -/
def mergeMask {α : Type} : List Bool → List α → List α → List α
  | [], _, _ => []
  | true :: m, xs, ys =>
    match xs with
    | [] => []
    | x :: xs => x :: mergeMask m xs ys
  | false :: m, xs, ys =>
    match ys with
    | [] => []
    | y :: ys => y :: mergeMask m xs ys

/-! ## Channel, executor and `AppContext::updates`

`AppContext::updates` (testing.rs) runs the queuing executor to quiescence
and then drains the effect and event channels.  The channel and executor
sources (`capability.rs`) are not part of this repository snapshot, so they
are modelled from the spec here; `updates` itself follows testing.rs. -/

/-- Modelled from the spec: the unbounded, ordered, multi-producer /
single-consumer queue of §2 — a FIFO list; `send` appends, `drain` empties
destructively and returns the queued items in FIFO order. -/
structure Channel (α : Type) where
  queue : List α

/-- Append one item at the back of the FIFO queue. -/
def Channel.send {α : Type} (c : Channel α) (a : α) : Channel α :=
  Channel.mk (c.queue ++ [a])

/-- Destructive ordered drain: the queued items, and the emptied channel. -/
def Channel.drain {α : Type} (c : Channel α) : List α × Channel α :=
  (c.queue, Channel.mk [])

/-- Modelled from the spec: a runnable "unit of capability logic" (§4.4) —
it can create commands whose effects are pushed onto the effect channel
(`emitEffect`), dispatch events onto the event channel (`dispatchEvent`),
and schedule further units on the executor's queue (`spawnUnit`), then
continues; `finished` is quiescence of the unit. -/
inductive Task (Ef Ev : Type) where
  | finished : Task Ef Ev
  | emitEffect : Ef → Task Ef Ev → Task Ef Ev
  | dispatchEvent : Ev → Task Ef Ev → Task Ef Ev
  | spawnUnit : Task Ef Ev → Task Ef Ev → Task Ef Ev

/-- Structural size of a task, used as the executor's termination measure. -/
def Task.size {Ef Ev : Type} : Task Ef Ev → Nat
  | .finished => 1
  | .emitEffect _ k => 1 + k.size
  | .dispatchEvent _ k => 1 + k.size
  | .spawnUnit t k => 1 + t.size + k.size

/-- Total size of a queue of tasks. -/
def sizeSum {Ef Ev : Type} (ts : List (Task Ef Ev)) : Nat :=
  (ts.map Task.size).sum

/-- Modelled from the spec: run one unit to quiescence (§4.4 "run-to-next-
suspension-point"), appending each created command's effect to the effect
channel at the moment of creation, each dispatched event to the event
channel, and each newly scheduled unit at the back of the ready queue. -/
def runTask {Ef Ev : Type} : Task Ef Ev → Channel Ef → Channel Ev →
    List (Task Ef Ev) → Channel Ef × Channel Ev × List (Task Ef Ev)
  | .finished, ce, cv, sp => (ce, cv, sp)
  | .emitEffect e k, ce, cv, sp => runTask k (ce.send e) cv sp
  | .dispatchEvent v k, ce, cv, sp => runTask k ce (cv.send v) sp
  | .spawnUnit t k, ce, cv, sp => runTask k ce cv (sp ++ [t])

theorem sizeSum_nil {Ef Ev : Type} : sizeSum ([] : List (Task Ef Ev)) = 0 := by
  simp [sizeSum]

theorem sizeSum_cons {Ef Ev : Type} (t : Task Ef Ev) (ts : List (Task Ef Ev)) :
    sizeSum (t :: ts) = t.size + sizeSum ts := by
  simp [sizeSum]

theorem sizeSum_append {Ef Ev : Type} (a b : List (Task Ef Ev)) :
    sizeSum (a ++ b) = sizeSum a + sizeSum b := by
  simp [sizeSum]

theorem runTask_spawned_size {Ef Ev : Type} (t : Task Ef Ev) (ce : Channel Ef)
    (cv : Channel Ev) (sp : List (Task Ef Ev)) :
    sizeSum (runTask t ce cv sp).2.2 < sizeSum sp + t.size := by
  induction t generalizing ce cv sp with
  | finished => simp [runTask, Task.size]
  | emitEffect e k ih =>
    simp only [runTask, Task.size]
    have := ih (ce.send e) cv sp
    omega
  | dispatchEvent v k ih =>
    simp only [runTask, Task.size]
    have := ih ce (cv.send v) sp
    omega
  | spawnUnit t k iht ihk =>
    simp only [runTask, Task.size]
    have := ihk ce cv (sp ++ [t])
    rw [sizeSum_append, sizeSum_cons, sizeSum_nil] at this
    omega

/-- Modelled from the spec: `QueuingExecutor::run_all` (§4.4) — pop ready
units in FIFO order and run each to quiescence, processing transitively any
unit scheduled while running, until no runnable unit remains. -/
def runAll {Ef Ev : Type} (ready : List (Task Ef Ev)) (ce : Channel Ef)
    (cv : Channel Ev) : Channel Ef × Channel Ev :=
  match ready with
  | [] => (ce, cv)
  | t :: ts =>
    let r := runTask t ce cv []
    runAll (ts ++ r.2.2) r.1 r.2.1
  termination_by sizeSum ready
  decreasing_by
    have h1 := runTask_spawned_size t ce cv []
    rw [sizeSum_nil] at h1
    rw [sizeSum_append, sizeSum_cons]
    omega

/-- `AppContext` from testing.rs: the effect (command) channel, the event
channel, and the executor's ready queue. -/
structure AppContext (Ef Ev : Type) where
  commands : Channel Ef
  events : Channel Ev
  executor : List (Task Ef Ev)

/-- `AppContext::updates` from testing.rs: `self.executor.run_all()`, then
drain the command channel into `effects` and the event channel into
`events`, materializing an `Update`.  State-passing form: the drained
context is returned alongside. -/
def AppContext.updates {Ef Ev : Type} (ctx : AppContext Ef Ev) :
    Update Ef Ev × AppContext Ef Ev :=
  let r := runAll ctx.executor ctx.commands ctx.events
  let de := r.1.drain
  let dv := r.2.drain
  (Update.mk de.1 dv.1, AppContext.mk de.2 dv.2 [])

/-- The chronological command-creation order of one unit: the effects it
emits, in program order, together with the units it schedules, in order. -/
def taskCreationTrace {Ef Ev : Type} : Task Ef Ev → List Ef × List (Task Ef Ev)
  | .finished => ([], [])
  | .emitEffect e k =>
    let r := taskCreationTrace k
    (e :: r.1, r.2)
  | .dispatchEvent _ k => taskCreationTrace k
  | .spawnUnit t k =>
    let r := taskCreationTrace k
    (r.1, t :: r.2)

theorem taskCreationTrace_spawned_size {Ef Ev : Type} (t : Task Ef Ev) :
    sizeSum (taskCreationTrace t).2 < t.size := by
  induction t with
  | finished => simp [taskCreationTrace, Task.size, sizeSum]
  | emitEffect e k ih =>
    simp only [taskCreationTrace, Task.size]
    omega
  | dispatchEvent v k ih =>
    simp only [taskCreationTrace, Task.size]
    omega
  | spawnUnit t k iht ihk =>
    simp only [taskCreationTrace, Task.size]
    rw [sizeSum_cons]
    omega

/-- The chronological command-creation order of a whole executor run: the
effects of each ready unit in execution order, units scheduled during the
run included at the position the executor reaches them. -/
def runCreationTrace {Ef Ev : Type} (ready : List (Task Ef Ev)) : List Ef :=
  match ready with
  | [] => []
  | t :: ts =>
    (taskCreationTrace t).1 ++ runCreationTrace (ts ++ (taskCreationTrace t).2)
  termination_by sizeSum ready
  decreasing_by
    have h1 := taskCreationTrace_spawned_size t
    rw [sizeSum_append, sizeSum_cons]
    omega

theorem runTask_effects_queue {Ef Ev : Type} (t : Task Ef Ev) (ce : Channel Ef)
    (cv : Channel Ev) (sp : List (Task Ef Ev)) :
    (runTask t ce cv sp).1.queue = ce.queue ++ (taskCreationTrace t).1 := by
  induction t generalizing ce cv sp with
  | finished => simp [runTask, taskCreationTrace]
  | emitEffect e k ih =>
    simp only [runTask, taskCreationTrace]
    rw [ih]
    simp [Channel.send]
  | dispatchEvent v k ih =>
    simp only [runTask, taskCreationTrace]
    exact ih ce (cv.send v) sp
  | spawnUnit t k iht ihk =>
    simp only [runTask, taskCreationTrace]
    exact ihk ce cv (sp ++ [t])

theorem runTask_spawned_queue {Ef Ev : Type} (t : Task Ef Ev) (ce : Channel Ef)
    (cv : Channel Ev) (sp : List (Task Ef Ev)) :
    (runTask t ce cv sp).2.2 = sp ++ (taskCreationTrace t).2 := by
  induction t generalizing ce cv sp with
  | finished => simp [runTask, taskCreationTrace]
  | emitEffect e k ih =>
    simp only [runTask, taskCreationTrace]
    exact ih (ce.send e) cv sp
  | dispatchEvent v k ih =>
    simp only [runTask, taskCreationTrace]
    exact ih ce (cv.send v) sp
  | spawnUnit t k iht ihk =>
    simp only [runTask, taskCreationTrace]
    rw [ihk]
    simp

theorem runAll_effects_queue {Ef Ev : Type} (ready : List (Task Ef Ev))
    (ce : Channel Ef) (cv : Channel Ev) :
    (runAll ready ce cv).1.queue = ce.queue ++ runCreationTrace ready := by
  induction ready, ce, cv using runAll.induct with
  | case1 ce cv => simp [runAll, runCreationTrace]
  | case2 ce cv t ts r ih =>
    rw [runAll, runCreationTrace]
    unfold r at ih
    rw [ih, runTask_effects_queue, runTask_spawned_queue]
    simp

/-! ## The effect-enum derivation check (`crux_macros/src/effect.rs`)

`EffectStructReceiver::to_tokens` collects the capability-holder struct's
fields into a `BTreeMap` keyed by field name (so, sorted by field name),
splits each field type `Cap<EventTy>` into the capability ident and its
event type, compares the token strings of adjacent event types, and
`panic!`s if any adjacent pair differs — before any wiring code is
generated.  Field names and type token strings are modelled as `String`. -/

/-- Insert an entry into a list sorted by key, keeping it sorted: the
embedding of `BTreeMap` entry order (struct fields have distinct names). -/
def insertByKey (x : String × String) :
    List (String × String) → List (String × String)
  | [] => [x]
  | y :: ys => if x.1 ≤ y.1 then x :: y :: ys else y :: insertByKey x ys

/-- Sort the field list by field name, as `BTreeMap::values` iterates. -/
def sortByKey : List (String × String) → List (String × String)
  | [] => []
  | x :: xs => insertByKey x (sortByKey xs)

/-- `events.windows(2).all(|win| win[0] == win[1])` on the token strings. -/
def allAdjacentEq : List String → Bool
  | a :: b :: rest => a == b && allAdjacentEq (b :: rest)
  | _ => true

/-- `EffectStructReceiver::to_tokens`: fields are `(field name, event type
token string)` pairs; they are sorted by field name, the adjacent-equality
check runs over the event types, and on failure the macro panics (`none`).
`events[0]` on an empty field list also panics (`none`).  On success the
generated enum/wiring has one entry per field, in sorted order. -/
def effectToTokens (fields : List (String × String)) :
    Option (List (String × String)) :=
  if allAdjacentEq ((sortByKey fields).map Prod.snd) then
    match sortByKey fields with
    | [] => none
    | _ :: _ => some (sortByKey fields)
  else none

theorem mem_insertByKey (x a : String × String)
    (l : List (String × String)) :
    x ∈ insertByKey a l ↔ x = a ∨ x ∈ l := by
  induction l with
  | nil => simp [insertByKey]
  | cons y ys ih =>
    simp only [insertByKey]
    by_cases h : a.1 ≤ y.1
    · simp [h]
    · simp only [h, if_false, List.mem_cons, ih]
      tauto

theorem mem_sortByKey (x : String × String) (l : List (String × String)) :
    x ∈ sortByKey l ↔ x ∈ l := by
  induction l with
  | nil => simp [sortByKey]
  | cons y ys ih =>
    simp only [sortByKey, mem_insertByKey, ih, List.mem_cons]

theorem allAdjacentEq_all_eq_head (a : String) (l : List String)
    (h : allAdjacentEq (a :: l) = true) : ∀ x ∈ a :: l, x = a := by
  induction l generalizing a with
  | nil => simp
  | cons b rest ih =>
    simp only [allAdjacentEq, Bool.and_eq_true, beq_iff_eq] at h
    obtain ⟨rfl, htail⟩ := h
    intro x hx
    rcases List.mem_cons.mp hx with rfl | hx
    · rfl
    · exact ih a htail x hx

/-! ## Helper lemmas shared by the claim theorems -/

theorem map_resolveWith {Ef Ev PEv : Type} (c : Command Ef Ev) (f : Ev → PEv)
    (p b : List Nat) (hdec : decodeBcsBytes p = some b) :
    (c.map f).resolveWith p = RustOutcome.map f (c.resolveWith p) := by
  have henc : encodeBcsBytes b = p := encodeBcsBytes_of_decode p b hdec
  cases hres : c.resolve with
  | none =>
    simp [Command.map, Command.resolveWith, hres, RustOutcome.map]
  | some r =>
    simp [Command.map, Command.resolveWith, hres, callBackFnCall, hdec, henc]

theorem mergeMask_filter {α : Type} (p : α → Bool) (l : List α) :
    mergeMask (l.map p) (l.filter p) (l.filter (fun a => ! p a)) = l := by
  induction l with
  | nil => rfl
  | cons a l ih =>
    cases h : p a with
    | true => simp [mergeMask, h, ih]
    | false => simp [mergeMask, h, ih]

/-! ## The claims -/

/-- C1: for every effect, every value of the continuation's input type and
every continuation `f`, a command built with `Command::new(effect, f)`,
resolved with the canonical binary encoding of the value, returns exactly
`f` applied to that value.  The encoding being canonical is the hypothesis
that decoding the encoded value recovers it. -/
theorem command_new_resolve_encoded_value {Ef Ev T : Type} (effect : Ef)
    (enc : T → List Nat) (dec : List Nat → Option T) (f : T → Ev) (value : T)
    (hcanon : dec (enc value) = some value) :
    (Command.new effect dec f).resolveWith (enc value)
      = RustOutcome.value (f value) := by
  simp [Command.new, Command.resolveWith, callBackFnCall, hcanon]

/-- C1 witness: the bcs byte-vector encoding at a concrete value. -/
theorem command_new_resolve_encoded_value_witness :
    decodeBcsBytes (encodeBcsBytes [7, 8]) = some [7, 8] ∧
      (Command.new (0 : Nat) decodeBcsBytes
          (fun b : List Nat => b.length)).resolveWith (encodeBcsBytes [7, 8])
        = RustOutcome.value 2 :=
  ⟨decodeBcsBytes_encodeBcsBytes [7, 8],
    command_new_resolve_encoded_value 0 encodeBcsBytes decodeBcsBytes
      (fun b : List Nat => b.length) [7, 8]
      (decodeBcsBytes_encodeBcsBytes [7, 8])⟩

/-- C2 counterexample: resolving a command that has a continuation with a
payload whose bytes do not decode is a `panic!` (the `unwrap` in
`CallBackFn::call`), not a typed recoverable failure result: the method
returns plainly `Ev`, so no failure value can reach the caller.  Concrete
input: payload `[2]` (length prefix 2 with no bytes following) against a
decoder of byte vectors. -/
theorem command_resolve_decode_failure_cex :
    (Command.new (0 : Nat) decodeBcsBytes
        (fun b : List Nat => b.length)).resolveWith [2]
      = RustOutcome.panicked unwrapFailMsg := by decide

/-- C2 amended: resolving a command built with `Command::new` with a byte
payload that does not decode to the continuation's input type fails
fatally (an unwrap panic) at resolution time; no event is produced, so that
specific resolution does not proceed.  Construction (`Command::new`) never
inspects payloads and cannot fail. -/
theorem command_resolve_decode_failure_panics {Ef Ev T : Type} (effect : Ef)
    (dec : List Nat → Option T) (f : T → Ev) (p : List Nat)
    (h : dec p = none) :
    (Command.new effect dec f).resolveWith p
      = RustOutcome.panicked unwrapFailMsg := by
  simp [Command.new, Command.resolveWith, callBackFnCall, h]

/-- C2 witness: the amended claim at the counterexample's concrete input. -/
theorem command_resolve_decode_failure_panics_witness :
    decodeBcsBytes [2] = none ∧
      (Command.new (1 : Nat) decodeBcsBytes
          (fun b : List Nat => b.length)).resolveWith [2]
        = RustOutcome.panicked unwrapFailMsg :=
  ⟨by decide,
    command_resolve_decode_failure_panics 1 decodeBcsBytes
      (fun b : List Nat => b.length) [2] (by decide)⟩

/-- C3: for every effect and every byte payload, resolving a command built
with `Command::new_without_callback(effect)` fails fatally with the
"mismatched capability response" contract-violation panic, because no
continuation is present. -/
theorem new_without_callback_resolve_panics {Ef Ev : Type} (effect : Ef)
    (p : List Nat) :
    (Command.new_without_callback effect : Command Ef Ev).resolveWith p
      = RustOutcome.panicked "mismatched capability response" := rfl

/-- C4: each command of `lift(lift(cs, f), g)` has a continuation
equivalent to `g ∘ f ∘ original`: on any payload that decodes under the
canonical encoding (so that the intermediate byte value re-encodes to the
very same payload — the round-trip-stability the claim requires), the
double-lifted command resolves to `g (f ·)` of whatever the original
command resolves to, panics included. -/
theorem lift_lift_continuation_composes {Ef Ev Ev1 Ev2 : Type}
    (cs : List (Command Ef Ev)) (f : Ev → Ev1) (g : Ev1 → Ev2) (i : Nat)
    (hi : i < (Command.lift (Command.lift cs f) g).length) (p b : List Nat)
    (hdec : decodeBcsBytes p = some b) :
    ((Command.lift (Command.lift cs f) g).get ⟨i, hi⟩).resolveWith p
      = RustOutcome.map (fun e => g (f e))
          ((cs.get ⟨i, by simpa [Command.lift] using hi⟩).resolveWith p) := by
  have hlen : i < cs.length := by simpa [Command.lift] using hi
  have hget : (Command.lift (Command.lift cs f) g).get ⟨i, hi⟩
      = ((cs.get ⟨i, hlen⟩).map f).map g := by
    simp [Command.lift, List.get_eq_getElem, List.getElem_map]
  rw [hget, map_resolveWith _ _ p b hdec, map_resolveWith _ _ p b hdec]
  cases (cs.get ⟨i, hlen⟩).resolveWith p <;> simp [RustOutcome.map]

/-- C4 witness: a singleton command sequence, two concrete lifts, and the
payload encoding the empty byte vector. -/
theorem lift_lift_continuation_composes_witness :
    decodeBcsBytes [0] = some ([] : List Nat) ∧
      ((Command.lift (Command.lift
            [Command.new (0 : Nat) decodeBcsBytes (fun b : List Nat => b.length)]
            (· + 1)) (· * 2)).get ⟨0, by decide⟩).resolveWith [0]
        = RustOutcome.map (fun e => (e + 1) * 2)
            (([Command.new (0 : Nat) decodeBcsBytes
                (fun b : List Nat => b.length)].get ⟨0, by decide⟩).resolveWith [0]) :=
  ⟨by decide,
    lift_lift_continuation_composes
      [Command.new (0 : Nat) decodeBcsBytes (fun b : List Nat => b.length)]
      (· + 1) (· * 2) 0 (by decide) [0] [] (by decide)⟩

/-- C5: resolving does not consume or modify the continuation — `resolve`
takes `&self` and the callback is a `Fn`.  Resolving a command any number
of times (one `resolveStep` per payload, each threading the returned
command state into the next call) leaves the command equal to the original,
and the outcomes are exactly the single-shot resolutions of the payloads,
so two resolutions with equal byte payloads yield equal events. -/
theorem resolve_not_consuming {Ef Ev : Type} (c : Command Ef Ev)
    (ps : List (List Nat)) :
    (c.resolveTrace ps).2 = c ∧
      (c.resolveTrace ps).1 = ps.map (fun p => c.resolveWith p) := by
  induction ps with
  | nil => simp [Command.resolveTrace]
  | cons p ps ih =>
    simp [Command.resolveTrace, Command.resolveStep, ih.1, ih.2]

/-- C6: the effects of a materialized `Update` are exactly the
chronological command-creation order of the update call: the effects the
update pushed onto the FIFO effect channel before `updates()` ran, followed
by the creation trace of the executor run — each ready unit's effects in
program order, units scheduled transitively during the same drain included
at the position the executor reaches them. -/
theorem updates_effects_creation_order {Ef Ev : Type}
    (ctx : AppContext Ef Ev) :
    ctx.updates.1.effects
      = ctx.commands.queue ++ runCreationTrace ctx.executor := by
  simp [AppContext.updates, Channel.drain, runAll_effects_queue]

/-- C7: `take_effects(predicate)` followed by `take_effects(not predicate)`
returns two sequences which, merged back along the original positions of
the matching and non-matching effects, reproduce the original effect
sequence exactly; the update is left with no effects. -/
theorem take_effects_complement_reassembles {Ef Ev : Type}
    (u : Update Ef Ev) (predicate : Ef → Bool) :
    mergeMask (u.effects.map predicate) (u.take_effects predicate).1
        ((u.take_effects predicate).2.take_effects
          (fun e => ! predicate e)).1
      = u.effects ∧
      ((u.take_effects predicate).2.take_effects
        (fun e => ! predicate e)).2.effects = [] := by
  constructor
  · have h1 : (u.take_effects predicate).1 = u.effects.filter predicate := rfl
    have h2 : ((u.take_effects predicate).2.take_effects
        (fun e => ! predicate e)).1
        = u.effects.filter (fun e => ! predicate e) := by
      simp only [Update.take_effects, Update.take_effects_partitioned_by,
        List.filter_filter]
      congr 1
      funext a
      cases predicate a <;> rfl
    rw [h1, h2, mergeMask_filter]
  · simp only [Update.take_effects, Update.take_effects_partitioned_by,
      List.filter_filter]
    have : ∀ a, ((! ! predicate a) && ! predicate a) = false := by
      intro a; cases predicate a <;> rfl
    simp [this]

/-- C8 counterexample: on the update with effects `[1, 2]` and the
predicate matching only `1`, `take_effects_partitioned_by` leaves the
update with *no* effects — the non-matching effect `2` is not left intact
in the update, it is handed back in the second partition. -/
theorem take_effects_partitioned_by_empties_cex :
    ((Update.mk [1, 2] [] : Update Nat Nat).take_effects_partitioned_by
        (fun e => e == 1)).2.effects = [] ∧
      ((Update.mk [1, 2] [] : Update Nat Nat).take_effects_partitioned_by
        (fun e => e == 1)).1.2 = [2] := by decide

/-- C8 amended: `take_effects_partitioned_by(predicate)` removes *all*
effects from the `Update` (the update's effect list is left empty, its
events untouched) and returns the matching and the non-matching effects as
two sequences, each preserving the original relative order; it is
`take_effects` that puts the non-matching ones back. -/
theorem take_effects_partitioned_by_partitions {Ef Ev : Type}
    (u : Update Ef Ev) (predicate : Ef → Bool) :
    (u.take_effects_partitioned_by predicate).1.1
        = u.effects.filter predicate ∧
      (u.take_effects_partitioned_by predicate).1.2
        = u.effects.filter (fun e => ! predicate e) ∧
      (u.take_effects_partitioned_by predicate).2.effects = [] ∧
      (u.take_effects_partitioned_by predicate).2.events = u.events := by
  simp [Update.take_effects_partitioned_by]

/-- C9: if the capability-holder declaration carries two fields whose event
types differ, the effect-enum derivation panics at code-generation time
(`effectToTokens` produces no wiring output at all). -/
theorem effect_distinct_event_types_fails (fields : List (String × String))
    (fa ta fb tb : String) (ha : (fa, ta) ∈ fields) (hb : (fb, tb) ∈ fields)
    (hne : ta ≠ tb) : effectToTokens fields = none := by
  unfold effectToTokens
  by_cases hadj : allAdjacentEq ((sortByKey fields).map Prod.snd) = true
  · exfalso
    have hta : ta ∈ (sortByKey fields).map Prod.snd :=
      List.mem_map.mpr ⟨(fa, ta), (mem_sortByKey _ _).mpr ha, rfl⟩
    have htb : tb ∈ (sortByKey fields).map Prod.snd :=
      List.mem_map.mpr ⟨(fb, tb), (mem_sortByKey _ _).mpr hb, rfl⟩
    cases hml : (sortByKey fields).map Prod.snd with
    | nil => rw [hml] at hta; exact absurd hta (List.not_mem_nil ta)
    | cons a l =>
      rw [hml] at hadj hta htb
      have heq := allAdjacentEq_all_eq_head a l hadj
      exact hne ((heq ta hta).trans (heq tb htb).symm)
  · simp [hadj]

/-- C9 witness: the repository's own negative test case — `render` over
`MyEvent` next to `time` over `YourEvent`. -/
theorem effect_distinct_event_types_fails_witness :
    ("render", "MyEvent") ∈ [("render", "MyEvent"), ("time", "YourEvent")] ∧
      ("time", "YourEvent") ∈ [("render", "MyEvent"), ("time", "YourEvent")] ∧
      "MyEvent" ≠ "YourEvent" ∧
      effectToTokens [("render", "MyEvent"), ("time", "YourEvent")] = none :=
  ⟨by decide, by decide, by decide,
    effect_distinct_event_types_fails
      [("render", "MyEvent"), ("time", "YourEvent")] "render" "MyEvent"
      "time" "YourEvent" (by decide) (by decide) (by decide)⟩

/-- C10: lifting a sequence of commands preserves its length (and so the
order of the commands), leaves every command's effect descriptor unchanged,
and maps a command without a continuation to a command without a
continuation and a command with one to a command with one. -/
theorem lift_preserves_effects_and_callback_presence {Ef Ev PEv : Type}
    (cs : List (Command Ef Ev)) (f : Ev → PEv) (i : Nat)
    (hi : i < cs.length) :
    (Command.lift cs f).length = cs.length ∧
      ((Command.lift cs f).get ⟨i, by simpa [Command.lift] using hi⟩).effect
          = (cs.get ⟨i, hi⟩).effect ∧
      (((Command.lift cs f).get
            ⟨i, by simpa [Command.lift] using hi⟩).resolve.isNone
        ↔ (cs.get ⟨i, hi⟩).resolve.isNone) := by
  refine ⟨by simp [Command.lift], ?_, ?_⟩
  · simp [Command.lift, List.get_eq_getElem, List.getElem_map, Command.map]
  · simp only [Command.lift, List.get_eq_getElem, List.getElem_map]
    cases hres : (cs.get ⟨i, hi⟩).resolve with
    | none =>
      simp [Command.map, List.get_eq_getElem] at hres ⊢
      simp [hres]
    | some r =>
      simp [Command.map, List.get_eq_getElem] at hres ⊢
      simp [hres]

/-- C10 witness: a singleton sequence holding a command with no callback. -/
theorem lift_preserves_effects_and_callback_presence_witness :
    (Command.lift [(Command.new_without_callback 5 : Command Nat Nat)]
          (· + 1)).length
        = [(Command.new_without_callback 5 : Command Nat Nat)].length ∧
      ((Command.lift [(Command.new_without_callback 5 : Command Nat Nat)]
            (· + 1)).get ⟨0, by decide⟩).effect
        = ([(Command.new_without_callback 5 : Command Nat Nat)].get
            ⟨0, by decide⟩).effect ∧
      (((Command.lift [(Command.new_without_callback 5 : Command Nat Nat)]
            (· + 1)).get ⟨0, by decide⟩).resolve.isNone
        ↔ ([(Command.new_without_callback 5 : Command Nat Nat)].get
            ⟨0, by decide⟩).resolve.isNone) :=
  lift_preserves_effects_and_callback_presence
    [(Command.new_without_callback 5 : Command Nat Nat)] (· + 1) 0 (by decide)

end Crux
